import Mathlib

/-!
Verification of `src/scripts/nnue/train_nnue.py` (mini-NNUE training pipeline).

Shallow embedding conventions:
* Python floats are modelled as exact rationals (`ℚ`); the claims settled over
  this idealization involve no rounding-sensitive reasoning (comparisons,
  negation, exact copies) except where noted in doc comments.
* Serialized 32-bit floats are modelled by their bit patterns (`Nat < 2^32`),
  i.e. the values after the `struct.pack("<f", ·)` quantization; the byte
  layout is modelled exactly.
* Seeded `random.Random` shuffles are modelled as explicit permutation-valued
  functions of the seed: a deterministic but unspecified function, constrained
  only to permute its input, exactly the guarantee the generator provides.
* File-system effects are modelled by the byte string a call leaves at its
  output path.
-/

namespace TrainNnue

/-- `RELU_CAP = 127.0` (train_nnue.py line 16). -/
def RELU_CAP : ℚ := 127

/-- `huber_loss` (train_nnue.py lines 189-193): quadratic inside the delta
band, linear outside. -/
def huber_loss (error delta : ℚ) : ℚ :=
  if |error| ≤ delta then (1/2) * error * error
  else delta * (|error| - (1/2) * delta)

/-- `huber_grad` (train_nnue.py lines 196-200): the error inside the delta
band, clipped to `±delta` outside. -/
def huber_grad (error delta : ℚ) : ℚ :=
  if |error| ≤ delta then error
  else if error > 0 then delta else -delta

/-- `PIECE_TYPE_INDEX` (train_nnue.py lines 18-25), as a partial lookup:
`none` models the `KeyError` a missing key raises. -/
def PIECE_TYPE_INDEX (c : Char) : Option Nat :=
  if c = 'p' then some 0
  else if c = 'n' then some 1
  else if c = 'b' then some 2
  else if c = 'r' then some 3
  else if c = 'q' then some 4
  else if c = 'k' then some 5
  else none

/-- `feature_index` (train_nnue.py lines 99-107). `none` models the
`KeyError` on a character that is no piece letter. -/
def feature_index (piece_char : Char) (file_idx rank_idx : Nat) : Option Nat :=
  match PIECE_TYPE_INDEX piece_char.toLower with
  | none => none
  | some type_index =>
      let color_offset : Nat := if piece_char.isUpper then 0 else 6
      let square_index : Nat :=
        if piece_char.isUpper then rank_idx * 8 + file_idx
        else (7 - rank_idx) * 8 + file_idx
      some ((color_offset + type_index) * 64 + square_index)

/-- Numeric value of a decimal digit character (Python `int(char)` for a
single `str.isdigit` character). -/
def digitVal (c : Char) : Nat := c.toNat - '0'.toNat

/-- The per-rank loop body of `fen_to_features` (train_nnue.py lines
119-125): walk the rank text left to right, digits advance `file_idx`,
piece letters emit a feature index and advance by one. `Except` models the
exceptions (`KeyError`) escaping the loop. -/
def processRank (rank_idx : Nat) : List Char → Nat → Except String (List Nat)
  | [], _ => .ok []
  | c :: rest, file_idx =>
      if c.isDigit then processRank rank_idx rest (file_idx + digitVal c)
      else
        match feature_index c file_idx rank_idx with
        | none => .error ("KeyError")
        | some idx =>
            match processRank rank_idx rest (file_idx + 1) with
            | .error e => .error e
            | .ok tail => .ok (idx :: tail)

/-- The outer loop of `fen_to_features` (train_nnue.py lines 116-126):
`fen_rank` enumerates the rank segments, `rank_idx = 7 - fen_rank`. -/
def processRanks (fen_rank : Nat) : List (List Char) → Except String (List Nat)
  | [] => .ok []
  | r :: rs =>
      match processRank (7 - fen_rank) r 0 with
      | .error e => .error e
      | .ok here =>
          match processRanks (fen_rank + 1) rs with
          | .error e => .error e
          | .ok rest => .ok (here ++ rest)

/-- First whitespace-separated token of a string, as a character list:
models `fen.split()[0]`; `none` models the `IndexError` when the string is
all whitespace. -/
def firstToken (s : List Char) : Option (List Char) :=
  match s.dropWhile Char.isWhitespace with
  | [] => none
  | rest => some (rest.takeWhile (fun c => ¬ c.isWhitespace))

/-- `board.split("/")` on a character list. -/
def splitOnSlash (s : List Char) : List (List Char) :=
  match s with
  | [] => [[]]
  | c :: rest =>
      let tail := splitOnSlash rest
      if c = '/' then [] :: tail
      else
        match tail with
        | [] => [[c]]
        | t :: ts => (c :: t) :: ts

instance {ε α : Type _} [DecidableEq ε] [DecidableEq α] :
    DecidableEq (Except ε α) := fun x y =>
  match x, y with
  | .error a, .error b =>
      if h : a = b then isTrue (by rw [h])
      else isFalse (fun hc => h (Except.error.inj hc))
  | .ok a, .ok b =>
      if h : a = b then isTrue (by rw [h])
      else isFalse (fun hc => h (Except.ok.inj hc))
  | .error _, .ok _ => isFalse (fun hc => Except.noConfusion hc)
  | .ok _, .error _ => isFalse (fun hc => Except.noConfusion hc)

/-- `fen_to_features` (train_nnue.py lines 110-126). -/
def fen_to_features (fen : List Char) : Except String (List Nat) :=
  match firstToken fen with
  | none => .error ("IndexError")
  | some board =>
      let ranks := splitOnSlash board
      if ranks.length = 8 then processRanks 0 ranks
      else .error ("Invalid FEN")

/-- File advance of one rank character: a digit advances by its value, a
piece letter by one (train_nnue.py lines 119-125). -/
def advance (c : Char) : Nat := if c.isDigit then digitVal c else 1

/-- A rank character the source handles without a `KeyError`: a digit or a
piece letter known to `PIECE_TYPE_INDEX`. -/
def validRankChar (c : Char) : Prop :=
  c.isDigit = true ∨ (PIECE_TYPE_INDEX c.toLower).isSome = true

instance (c : Char) : Decidable (validRankChar c) := by
  unfold validRankChar; infer_instance

/-- The pieces of one rank text with the file each lands on, in source
traversal order (the non-digit characters of lines 119-125). -/
def rankPlacements : List Char → Nat → List (Char × Nat)
  | [], _ => []
  | c :: rest, f =>
      if c.isDigit then rankPlacements rest (f + digitVal c)
      else (c, f) :: rankPlacements rest (f + 1)

/-- All pieces of a rank list with file and `rank_idx = 7 - fen_rank`,
mirroring the enumeration of lines 116-125. -/
def boardPlacements : Nat → List (List Char) → List (Char × Nat × Nat)
  | _, [] => []
  | fen_rank, r :: rs =>
      ((rankPlacements r 0).map (fun p => (p.1, p.2, 7 - fen_rank)))
        ++ boardPlacements (fen_rank + 1) rs

/-- The spec's fixed piece-type enumeration \x7bpawn=0, knight=1, bishop=2,
rook=3, queen=4, king=5\x7d, written from the spec's words for the
refinement statement of the encoding rule. -/
def specPieceType (c : Char) : Nat :=
  if c = 'p' then 0
  else if c = 'n' then 1
  else if c = 'b' then 2
  else if c = 'r' then 3
  else if c = 'q' then 4
  else 5

/-- The spec's encoding rule, written from the spec's words:
index = (colorOffset + pieceTypeIndex) * 64 + squareIndex, colorOffset 0
for white and 6 for black, squareIndex rank*8+file for white pieces and
(7-rank)*8+file for black pieces. -/
def specFeatureIndex (c : Char) (file rank : Nat) : Nat :=
  ((if c.isUpper then 0 else 6) + specPieceType c.toLower) * 64 +
    (if c.isUpper then rank * 8 + file else (7 - rank) * 8 + file)

/-- The fen-rank segment a feature index came from, recovered from the
index alone (white planes are 0-5, black 6-11; black ranks are mirrored). -/
def idxFenRank (x : Nat) : Nat :=
  if x / 64 < 6 then 7 - (x % 64) / 8 else (x % 64) / 8

/-! ### Model (train_nnue.py lines 129-186)

Parameters are total functions so that out-of-range indices never block the
frame statements; the source's loops bound every touched index anyway. -/

/-- The mutable parameter state of `NnueModel`. -/
structure NnueParams where
  w1 : Nat → Nat → ℚ
  b1 : Nat → ℚ
  w2 : Nat → ℚ
  b2 : ℚ

/-- Hidden pre-activation of unit `i` (train_nnue.py lines 143-147):
`b1[i]` plus the sum of `w1[idx][i]` over the feature list. -/
def hiddenPre (m : NnueParams) (features : List Nat) (i : Nat) : ℚ :=
  m.b1 i + (features.map (fun idx => m.w1 idx i)).sum

/-- Post-activation value (train_nnue.py lines 149-156): clamp to 0 below,
to `RELU_CAP` above. -/
def hiddenPost (m : NnueParams) (features : List Nat) (i : Nat) : ℚ :=
  let v := hiddenPre m features i
  if v ≤ 0 then 0 else if RELU_CAP ≤ v then RELU_CAP else v

/-- The `active[i]` flag (train_nnue.py lines 148-157): neither clamped at
0 nor saturated at the cap. -/
def activeUnit (m : NnueParams) (features : List Nat) (i : Nat) : Bool :=
  let v := hiddenPre m features i
  if v ≤ 0 then false else if RELU_CAP ≤ v then false else true

/-- Network output (train_nnue.py lines 158-161): `b2` plus contributions
of the nonzero hidden units. -/
def outputOf (H : Nat) (m : NnueParams) (features : List Nat) : ℚ :=
  m.b2 + ((List.range H).map (fun i =>
    let h := hiddenPost m features i
    if h ≠ 0 then h * m.w2 i else 0)).sum

/-- The inner loop over the feature list updating one `w1` column
(train_nnue.py lines 180-181), one hidden unit `i` at a time. -/
def updateRow (lr g : ℚ) (i : Nat) (features : List Nat)
    (w1 : Nat → Nat → ℚ) : Nat → Nat → ℚ :=
  features.foldl
    (fun w idx => fun r j => if r = idx ∧ j = i then w r j - lr * g else w r j) w1

/-- One iteration of the layer-1 update loop (train_nnue.py lines
173-181): skip an inactive unit or a zero backpropagated signal, otherwise
update `b1[i]` and the feature rows of `w1`. -/
def layer1Step (features : List Nat) (lr grad : ℚ) (w2snap : Nat → ℚ)
    (act : Nat → Bool) (st : (Nat → Nat → ℚ) × (Nat → ℚ)) (i : Nat) :
    (Nat → Nat → ℚ) × (Nat → ℚ) :=
  if act i = false then st
  else if grad * w2snap i = 0 then st
  else
    (updateRow lr (grad * w2snap i) i features st.1,
     fun j => if j = i then st.2 j - lr * (grad * w2snap i) else st.2 j)

/-- The layer-1 update loop over the hidden units in range
(train_nnue.py lines 173-181). -/
def layer1Update (H : Nat) (features : List Nat) (lr grad : ℚ)
    (w2snap : Nat → ℚ) (act : Nat → Bool) (w1 : Nat → Nat → ℚ) (b1 : Nat → ℚ) :
    (Nat → Nat → ℚ) × (Nat → ℚ) :=
  (List.range H).foldl (layer1Step features lr grad w2snap act) (w1, b1)

/-- `NnueModel.train_sample` (train_nnue.py lines 164-182): one online
gradient step, returning the updated parameters and the Huber loss of the
sample. `w2` is updated pointwise from the pre-update values exactly as the
source's per-index loop does; the layer-1 pass reads the `w2` snapshot. -/
def train_sample (H : Nat) (m : NnueParams) (features : List Nat)
    (label lr delta : ℚ) : NnueParams × ℚ :=
  let output := outputOf H m features
  let error := output - label
  let grad := huber_grad error delta
  let w2snap := m.w2
  let w2Next : Nat → ℚ := fun i =>
    if i < H ∧ hiddenPost m features i ≠ 0 then
      m.w2 i - lr * grad * hiddenPost m features i
    else m.w2 i
  let b2Next := m.b2 - lr * grad
  let l1 := layer1Update H features lr grad w2snap (activeUnit m features) m.w1 m.b1
  (⟨l1.1, l1.2, w2Next, b2Next⟩, huber_loss error delta)

/-! ### Serializer (train_nnue.py lines 203-228)

Float values appear as their 32-bit patterns (`Nat`, little-endian bytes),
i.e. the values after the 4-byte float quantization. The bytes a call to
`write_snnue` leaves at its output path are modelled explicitly: the source
writes and flushes everything before the length check, so the file content
is present whether the check passes or raises. -/

/-- The 4 magic bytes of the artifact: ASCII of the magic token. -/
def MAGIC : List Nat := [83, 78, 78, 49]

/-- `VERSION = 1` (train_nnue.py line 12). -/
def VERSION : Nat := 1

/-- `FLAGS = 0` (train_nnue.py line 13). -/
def FLAGS : Nat := 0

/-- One 16-bit little-endian header field. -/
def toLE16 (n : Nat) : List Nat := [n % 256, n / 256 % 256]

/-- A 32-bit pattern as 4 little-endian bytes. -/
def toLE32 (w : Nat) : List Nat :=
  [w % 256, w / 256 % 256, w / 65536 % 256, w / 16777216 % 256]

/-- Little-endian 32-bit read, the inverse direction of `toLE32`. -/
def fromLE32 (b : List Nat) : Nat :=
  match b with
  | [a, b, c, d] => a + 256 * b + 65536 * c + 16777216 * d
  | _ => 0

/-- Split a byte list into consecutive 4-byte groups. -/
def chunk4 : List Nat → List (List Nat)
  | a :: b :: c :: d :: rest => [a, b, c, d] :: chunk4 rest
  | _ => []

/-- The exact byte sequence `write_snnue` writes (train_nnue.py lines
215-225): magic, four 16-bit header fields, then `w1` row-major, `b1`,
`w2`, `b2` as 4-byte little-endian floats. -/
def snnueBytes (input_size hidden_size : Nat) (w1 : List (List Nat))
    (b1 w2 : List Nat) (b2 : Nat) : List Nat :=
  MAGIC ++ toLE16 input_size ++ toLE16 hidden_size ++ toLE16 VERSION ++ toLE16 FLAGS
    ++ (w1.map (fun row => (row.map toLE32).flatten)).flatten
    ++ (b1.map toLE32).flatten
    ++ (w2.map toLE32).flatten
    ++ toLE32 b2

/-- Outcome of one `write_snnue` call: the bytes left on disk at the output
path, and whether the call returned normally (`ok = false` models the
raised `ValueError` of line 228, which happens after the write and flush). -/
structure WriteResult where
  fileBytes : List Nat
  ok : Bool

/-- `write_snnue` (train_nnue.py lines 203-228). -/
def write_snnue (input_size hidden_size : Nat) (w1 : List (List Nat))
    (b1 w2 : List Nat) (b2 : Nat) : WriteResult :=
  let float_count := input_size * hidden_size + hidden_size + hidden_size + 1
  let byte_length := 12 + float_count * 4
  let bytes := snnueBytes input_size hidden_size w1 b1 w2 b2
  ⟨bytes, if bytes.length = byte_length then true else false⟩

/-- Split a flat float list into rows of `n` (row-major `w1` recovery). -/
def chunkRows (n : Nat) (l : List Nat) : List (List Nat) :=
  if h : n = 0 ∨ l = [] then []
  else
    l.take n :: chunkRows n (l.drop n)
termination_by l.length
decreasing_by
  simp only [not_or] at h
  have h1 : 0 < n := Nat.pos_of_ne_zero h.1
  have h2 : 0 < l.length := List.length_pos.mpr h.2
  simp only [List.length_drop]
  omega

/-- Decode the bytes after the 12-byte header as consecutive 4-byte
little-endian floats and split them as w1 row-major, then b1, then w2,
then b2. -/
def decode_snnue (input_size hidden_size : Nat) (bytes : List Nat) :
    List (List Nat) × List Nat × List Nat × Nat :=
  let fl := (chunk4 (bytes.drop 12)).map fromLE32
  let w1flat := fl.take (input_size * hidden_size)
  let rest := fl.drop (input_size * hidden_size)
  let b1 := rest.take hidden_size
  let rest2 := rest.drop hidden_size
  let w2 := rest2.take hidden_size
  let b2 := List.headD (rest2.drop hidden_size) 0
  (chunkRows hidden_size w1flat, b1, w2, b2)

/-! ### Samples, row filtering and the game split
(train_nnue.py lines 256-344)

`random.Random(seed).shuffle` is modelled by an explicit permutation-valued
function applied to the seeded draw; `int(len(games) * 0.9)` is modelled as
the exact floor `len * 9 / 10` (the float product rounds to the same floor
for any realistic game count). -/

/-- One accepted dataset sample (train_nnue.py lines 311-318). -/
structure Sample where
  features : List Nat
  label : ℚ
  label16 : Option ℚ
  gameId : Int
deriving DecidableEq

/-- One parsed dataset row (the fields read in train_nnue.py lines
280-310). -/
structure Row where
  gameId : Int
  runId : String
  fen : List Char
  evalCp : Option ℚ
  mateIn : Option ℚ
  timeoutNearby : Bool
  evalCp16 : Option ℚ
deriving DecidableEq

/-- Outcome of one loader iteration: a fatal exception, a counted skip
bucket, or an accepted sample. -/
inductive RowOutcome where
  | fatal : String → RowOutcome
  | skip : String → RowOutcome
  | accept : Sample → RowOutcome
deriving DecidableEq

/-- The per-row body of `load_samples` (train_nnue.py lines 280-318), with
the game's resolved timeout-move count and the resolved engine color
(`load_engine_color` guarantees it is one of the two valid letters) passed
in. -/
def process_row (row : Row) (game_timeout : Int) (engine_color : Char) : RowOutcome :=
  if row.runId = "" then .fatal ("Dataset row missing runId.")
  else if game_timeout ≠ 0 then .skip ("timeoutGame")
  else if row.timeoutNearby then .skip ("timeoutNearby")
  else
    match row.evalCp, row.mateIn with
    | none, _ => .skip ("mate")
    | some _, some _ => .skip ("mate")
    | some cp, none =>
        let label := if engine_color = 'w' then cp else -cp
        match fen_to_features row.fen with
        | .error e => .fatal e
        | .ok features =>
            let label16 :=
              match row.evalCp16 with
              | none => none
              | some cp16 => some (if engine_color = 'w' then cp16 else -cp16)
            .accept ⟨features, label, label16, row.gameId⟩

/-- `sorted({sample["gameId"] for sample in samples})` (train_nnue.py line
338): the distinct game identifiers in ascending order. -/
def distinctGames (samples : List Sample) : List Int :=
  ((samples.map Sample.gameId).dedup).insertionSort (fun a b => a ≤ b)

/-- `split_by_game` (train_nnue.py lines 336-344), with the seeded shuffle
of the game list supplied as the permutation `perm` it produced. -/
def split_by_game (perm : List Int → List Int) (samples : List Sample) :
    List Sample × List Sample :=
  let games := perm (distinctGames samples)
  let cutoff := games.length * 9 / 10
  let train_games := games.take cutoff
  (samples.filter (fun s => decide (s.gameId ∈ train_games)),
   samples.filter (fun s => decide (s.gameId ∉ train_games)))

/-! ### Trainer (train_nnue.py lines 347-416) -/

/-- One epoch of online updates over the training set in its fixed order
(train_nnue.py lines 390-394). -/
def trainEpoch (H : Nat) (m : NnueParams) (train : List Sample)
    (lr delta : ℚ) : NnueParams :=
  train.foldl (fun acc s => (train_sample H acc s.features s.label lr delta).1) m

/-- `evaluate` (train_nnue.py lines 347-354): mean Huber loss of the
predictions over a sample set, 0 on the empty set. -/
def evaluate (H : Nat) (m : NnueParams) (samples : List Sample) (delta : ℚ) : ℚ :=
  if samples = [] then 0
  else ((samples.map (fun s =>
    huber_loss (outputOf H m s.features - s.label) delta)).sum) / samples.length

/-- The early-stopping bookkeeping of the epoch loop (train_nnue.py lines
385-388): best validation loss so far (`none` is `math.inf`), its epoch
number, the deep-copied snapshot taken there, and the patience counter. -/
structure TrainState (P : Type) where
  best_val : Option ℚ
  best_epoch : Nat
  best_snapshot : Option P
  patience_left : Int
deriving DecidableEq

/-- `val_loss < best_val` with `best_val` starting at `math.inf`
(train_nnue.py line 399). -/
def improves (v : ℚ) : Option ℚ → Bool
  | none => true
  | some b => if v < b then true else false

/-- The tail of one epoch iteration (train_nnue.py lines 399-413), given
the 0-based epoch number `e` and its validation loss: on strict improvement
record the best and reset patience; otherwise, once `epoch + 1` has reached
the minimum-epoch floor, decrement patience and report whether the loop
breaks. `paramsAfter n` stands for the parameters after `n` epochs of
training (`paramsAfter 0` is the initial model). -/
def stepEpoch {P : Type} (patience : Int) (minEpochs : Nat)
    (paramsAfter : Nat → P) (losses : Nat → ℚ) (e : Nat) (s : TrainState P) :
    TrainState P × Bool :=
  if improves (losses e) s.best_val then
    (⟨some (losses e), e + 1, some (paramsAfter (e + 1)), patience⟩, false)
  else if minEpochs ≤ e + 1 then
    (⟨s.best_val, s.best_epoch, s.best_snapshot, s.patience_left - 1⟩,
     if s.patience_left - 1 ≤ 0 then true else false)
  else (s, false)

/-- The epoch loop (train_nnue.py lines 389-413) from 0-based epoch `e`
with the given number of epochs remaining: returns the final bookkeeping
state, the number of epochs fully processed, and whether the loop broke
early. -/
def runLoop {P : Type} (patience : Int) (minEpochs : Nat)
    (paramsAfter : Nat → P) (losses : Nat → ℚ) :
    Nat → Nat → TrainState P → TrainState P × Nat × Bool
  | e, 0, s => (s, e, false)
  | e, n + 1, s =>
      let r := stepEpoch patience minEpochs paramsAfter losses e s
      if r.2 then (r.1, e + 1, true)
      else runLoop patience minEpochs paramsAfter losses (e + 1) n r.1

/-- Initial bookkeeping (train_nnue.py lines 385-388). -/
def initState (P : Type) (patience : Int) : TrainState P :=
  ⟨none, 0, none, patience⟩

/-- The whole bounded epoch loop (train_nnue.py lines 389-413). -/
def runTraining {P : Type} (epochs minEpochs : Nat) (patience : Int)
    (paramsAfter : Nat → P) (losses : Nat → ℚ) : TrainState P × Nat × Bool :=
  runLoop patience minEpochs paramsAfter losses 0 epochs (initState P patience)

/-- The best-snapshot restore after the loop (train_nnue.py lines 415-416):
the snapshot if one was taken, otherwise the live parameters after the
epochs that ran. -/
def finalParams {P : Type} (paramsAfter : Nat → P)
    (r : TrainState P × Nat × Bool) : P :=
  match r.1.best_snapshot with
  | some p => p
  | none => paramsAfter r.2.1

/-- Loop invariant of the epoch loop once at least one epoch has run: the
bookkeeping records the first epoch attaining the minimum validation loss
seen so far, with its deep-copied snapshot. -/
def InvGood {P : Type} (paramsAfter : Nat → P) (losses : Nat → ℚ)
    (e : Nat) (s : TrainState P) : Prop :=
  1 ≤ s.best_epoch ∧ s.best_epoch ≤ e ∧
  s.best_val = some (losses (s.best_epoch - 1)) ∧
  s.best_snapshot = some (paramsAfter s.best_epoch) ∧
  (∀ j, j < e → losses (s.best_epoch - 1) ≤ losses j) ∧
  (∀ j, j + 1 < s.best_epoch → losses (s.best_epoch - 1) < losses j)

/-- A concrete validation-loss sequence for checking the early-stopping
policy: strict improvement for two epochs, then a plateau. -/
def wLosses : Nat → ℚ := fun e => if e = 0 then 10 else if e = 1 then 5 else 7

/-! ### Whole-pipeline composition (C9)

Every stage is a pure function of the declared inputs; the seeded
generators appear as deterministic function families applied to the seed
(`random.Random(seed)` is a fixed algorithm), and the 32-bit float
quantization of the serializer as a fixed function `quant`. -/

/-- Hyperparameters of one run (train_nnue.py lines 55-61). -/
structure Hyper where
  epochs : Nat
  minEpochs : Nat
  patience : Int
  lr : ℚ
  huberDelta : ℚ

/-- The accept/skip/abort fold of `load_samples` over the dataset rows
(train_nnue.py lines 274-324), with the resolved per-game timeout counts
and engine colors supplied as lookup functions. -/
def load_rows (timeoutOf : Int → Int) (colorOf : String → Int → Char) :
    List Row → Except String (List Sample)
  | [] => .ok []
  | row :: rest =>
      match process_row row (timeoutOf row.gameId) (colorOf row.runId row.gameId) with
      | .fatal e => .error e
      | .skip _ =>
          load_rows timeoutOf colorOf rest
      | .accept s =>
          match load_rows timeoutOf colorOf rest with
          | .error e => .error e
          | .ok tl => .ok (s :: tl)

/-- Parameters after `n` training epochs over the fixed train list
(train_nnue.py lines 389-394). -/
def paramsTraj (H : Nat) (init : NnueParams) (train : List Sample)
    (lr delta : ℚ) : Nat → NnueParams
  | 0 => init
  | n + 1 => trainEpoch H (paramsTraj H init train lr delta n) train lr delta

/-- Validation loss of 0-based epoch `e` (train_nnue.py line 396). -/
def lossesTraj (H : Nat) (init : NnueParams) (train val : List Sample)
    (lr delta : ℚ) (e : Nat) : ℚ :=
  evaluate H (paramsTraj H init train lr delta (e + 1)) val delta

/-- Quantize a function-shaped parameter set to the serializer's list
shapes through the fixed 32-bit quantization `quant`. -/
def quantParams (quant : ℚ → Nat) (input_size hidden_size : Nat)
    (m : NnueParams) : List (List Nat) × List Nat × List Nat × Nat :=
  ((List.range input_size).map (fun r =>
      (List.range hidden_size).map (fun i => quant (m.w1 r i))),
   (List.range hidden_size).map (fun i => quant (m.b1 i)),
   (List.range hidden_size).map (fun i => quant (m.w2 i)),
   quant m.b2)

/-- The full training pipeline of `main` (train_nnue.py lines 369-420) as a
function of the dataset rows, the resolved metadata lookups, the seeded
generator families (`shuffleS`, `shuffleG` for the two shuffles, `initP`
for the weight draw), the quantizer, the seed and the hyperparameters.
Returns the shuffled sample order, the train/validation split, the number
of epochs run with the early-stop flag, the restored final parameters and
the serialized weight bytes. -/
def pipeline (rows : List Row) (timeoutOf : Int → Int)
    (colorOf : String → Int → Char)
    (shuffleS : Nat → List Sample → List Sample)
    (shuffleG : Nat → List Int → List Int)
    (initP : Nat → NnueParams) (quant : ℚ → Nat) (seed : Nat) (hp : Hyper) :
    Except String
      (List Sample × (List Sample × List Sample) × (Nat × Bool) ×
        NnueParams × List Nat) :=
  match load_rows timeoutOf colorOf rows with
  | .error e => .error e
  | .ok loaded =>
      let samples := shuffleS seed loaded
      if samples = [] then .error ("No samples after filtering.")
      else
        let tv := split_by_game (shuffleG seed) samples
        let init := initP seed
        let pAfter := paramsTraj 64 init tv.1 hp.lr hp.huberDelta
        let losses := lossesTraj 64 init tv.1 tv.2 hp.lr hp.huberDelta
        let r := runTraining hp.epochs hp.minEpochs hp.patience pAfter losses
        let best := finalParams pAfter r
        let q := quantParams quant 768 64 best
        let bytes := (write_snnue 768 64 q.1 q.2.1 q.2.2.1 q.2.2.2).fileBytes
        .ok (samples, tv, (r.2.1, r.2.2), best, bytes)

/-! ## Theorems -/

/-- C7: the Huber gradient is the error inside the delta band and exactly
`±delta` outside it; the Huber loss is `0.5·error²` inside the band and
`delta·(|error| − 0.5·delta)` outside; in particular with delta 100 the
errors 50, 150, −150 give gradients 50, 100, −100. -/
theorem huber_agreement (error delta : ℚ) (hd : 0 < delta) :
    (|error| ≤ delta →
      huber_grad error delta = error ∧
      huber_loss error delta = (1/2) * error * error) ∧
    (delta < |error| →
      (0 < error → huber_grad error delta = delta) ∧
      (error < 0 → huber_grad error delta = -delta) ∧
      huber_loss error delta = delta * (|error| - (1/2) * delta)) ∧
    huber_grad 50 100 = 50 ∧ huber_grad 150 100 = 100 ∧
    huber_grad (-150) 100 = -100 := by
  refine ⟨fun h => ?_, fun h => ?_, by norm_num [huber_grad],
    by norm_num [huber_grad, abs_of_nonneg], ?_⟩
  · unfold huber_grad huber_loss
    rw [if_pos h, if_pos h]
    exact ⟨rfl, rfl⟩
  · have h' : ¬ |error| ≤ delta := not_le.mpr h
    unfold huber_grad huber_loss
    rw [if_neg h', if_neg h']
    refine ⟨fun he => ?_, fun he => ?_, rfl⟩
    · rw [if_pos he]
    · rw [if_neg (by linarith)]
  · have h1 : |(-150 : ℚ)| = 150 := by norm_num [abs_of_nonpos]
    have h2 : ¬ |(-150 : ℚ)| ≤ 100 := by rw [h1]; norm_num
    unfold huber_grad
    rw [if_neg h2, if_neg (by norm_num)]

/-- C7 witness: the general statement applied at error 150, delta 100. -/
theorem huber_agreement_witness :
    (0 : ℚ) < 100 ∧
    ((|(150 : ℚ)| ≤ 100 →
      huber_grad 150 100 = 150 ∧
      huber_loss 150 100 = (1/2) * 150 * 150) ∧
    ((100 : ℚ) < |(150 : ℚ)| →
      ((0 : ℚ) < 150 → huber_grad 150 100 = 100) ∧
      ((150 : ℚ) < 0 → huber_grad 150 100 = -100) ∧
      huber_loss 150 100 = 100 * (|(150 : ℚ)| - (1/2) * 100)) ∧
    huber_grad 50 100 = 50 ∧ huber_grad 150 100 = 100 ∧
    huber_grad (-150) 100 = -100) :=
  ⟨by norm_num, huber_agreement 150 100 (by norm_num)⟩

/-- Byte length of a float section: 4 bytes per value. -/
theorem length_floats_section (l : List Nat) :
    ((l.map toLE32).flatten).length = 4 * l.length := by
  induction l with
  | nil => rfl
  | cons a t ih =>
      simp only [List.map_cons, List.flatten_cons, List.length_append, ih,
        List.length_cons]
      simp [toLE32]
      ring

/-- Byte length of the row-major `w1` section. -/
theorem length_w1_section (w1 : List (List Nat)) :
    ((w1.map (fun row => (row.map toLE32).flatten)).flatten).length =
      4 * (w1.map List.length).sum := by
  induction w1 with
  | nil => rfl
  | cons r rs ih =>
      simp only [List.map_cons, List.flatten_cons, List.length_append, ih,
        List.sum_cons, length_floats_section]
      ring

/-- Total byte count actually written by `write_snnue`: 12 header bytes
plus 4 per float passed in, whatever the shapes are. -/
theorem snnueBytes_length (input_size hidden_size : Nat)
    (w1 : List (List Nat)) (b1 w2 : List Nat) (b2 : Nat) :
    (snnueBytes input_size hidden_size w1 b1 w2 b2).length =
      12 + 4 * ((w1.map List.length).sum + b1.length + w2.length + 1) := by
  unfold snnueBytes
  simp only [List.length_append, length_w1_section, length_floats_section]
  simp [MAGIC, toLE16, toLE32]
  ring

/-- C1 counterexample: a parameter set whose shapes mismatch the declared
sizes makes the write fail, yet the file at the path keeps the 16 bytes
already written — it neither has the expected length nor is absent. -/
theorem write_snnue_partial_file_cex :
    (write_snnue 768 64 [] [] [] 0).ok = false ∧
    (write_snnue 768 64 [] [] [] 0).fileBytes.length = 16 ∧
    16 ≠ 12 + (768 * 64 + 64 + 64 + 1) * 4 := by
  refine ⟨by decide, by decide, by norm_num⟩

/-- C1 (amended): the file at the output path always holds exactly the
serialized bytes — 12 header bytes plus 4 per float passed — and the write
raises (fails as a whole) precisely when that float count differs from the
total expected from the declared shapes; the already-written file is left
behind in that case rather than removed. -/
theorem write_snnue_file_outcome (input_size hidden_size : Nat)
    (w1 : List (List Nat)) (b1 w2 : List Nat) (b2 : Nat) :
    (write_snnue input_size hidden_size w1 b1 w2 b2).fileBytes =
      snnueBytes input_size hidden_size w1 b1 w2 b2 ∧
    (write_snnue input_size hidden_size w1 b1 w2 b2).fileBytes.length =
      12 + 4 * ((w1.map List.length).sum + b1.length + w2.length + 1) ∧
    ((write_snnue input_size hidden_size w1 b1 w2 b2).ok = true ↔
      (w1.map List.length).sum + b1.length + w2.length + 1 =
        input_size * hidden_size + hidden_size + hidden_size + 1) := by
  have hl := snnueBytes_length input_size hidden_size w1 b1 w2 b2
  refine ⟨rfl, hl, ?_⟩
  have hok : (write_snnue input_size hidden_size w1 b1 w2 b2).ok =
      (if (snnueBytes input_size hidden_size w1 b1 w2 b2).length =
        12 + (input_size * hidden_size + hidden_size + hidden_size + 1) * 4
      then true else false) := rfl
  rw [hok, hl]
  by_cases hc : (w1.map List.length).sum + b1.length + w2.length + 1 =
      input_size * hidden_size + hidden_size + hidden_size + 1
  · rw [if_pos (by omega)]
    simp [hc]
  · rw [if_neg (by omega)]
    simp [hc]

/-- The source lookup and the spec's enumeration agree on every key the
lookup knows. -/
theorem specPieceType_of_lookup (c : Char) (t : Nat)
    (h : PIECE_TYPE_INDEX c = some t) : specPieceType c = t := by
  unfold PIECE_TYPE_INDEX at h
  unfold specPieceType
  split_ifs at h <;> simp_all

/-- The spec's enumeration is bounded by the king's index. -/
theorem specPieceType_le (c : Char) : specPieceType c ≤ 5 := by
  unfold specPieceType
  split_ifs <;> omega

/-- On a known piece letter, `feature_index` returns exactly the spec's
encoding formula. -/
theorem feature_index_eq_spec (c : Char)
    (h : (PIECE_TYPE_INDEX c.toLower).isSome = true) (f k : Nat) :
    feature_index c f k = some (specFeatureIndex c f k) := by
  obtain ⟨t, ht⟩ := Option.isSome_iff_exists.mp h
  unfold feature_index specFeatureIndex
  rw [ht, specPieceType_of_lookup c.toLower t ht]

/-- On a rank of handled characters, the rank loop succeeds and returns
exactly one spec-formula index per piece placement, in traversal order. -/
theorem processRank_eq_map (k : Nat) (r : List Char) :
    ∀ f, (∀ c ∈ r, validRankChar c) →
    processRank k r f =
      .ok ((rankPlacements r f).map (fun p => specFeatureIndex p.1 p.2 k)) := by
  induction r with
  | nil => intro f _; rfl
  | cons c rest ih =>
      intro f hv
      have hc := hv c (List.mem_cons_self c rest)
      have hrest : ∀ x ∈ rest, validRankChar x :=
        fun x hx => hv x (List.mem_cons_of_mem _ hx)
      by_cases hdig : c.isDigit = true
      · unfold processRank rankPlacements
        rw [if_pos hdig, if_pos hdig]
        exact ih _ hrest
      · have hp : (PIECE_TYPE_INDEX c.toLower).isSome = true := by
          cases hc with
          | inl h => exact absurd h hdig
          | inr h => exact h
        unfold processRank rankPlacements
        rw [if_neg hdig, if_neg hdig, feature_index_eq_spec c hp f k, ih _ hrest]
        rfl

/-- Placement files never move left of the starting file. -/
theorem rankPlacements_file_ge (r : List Char) :
    ∀ f p, p ∈ rankPlacements r f → f ≤ p.2 := by
  induction r with
  | nil => intro f p hp; simp [rankPlacements] at hp
  | cons c rest ih =>
      intro f p hp
      unfold rankPlacements at hp
      by_cases hdig : c.isDigit = true
      · rw [if_pos hdig] at hp
        have := ih _ p hp
        omega
      · rw [if_neg hdig] at hp
        rcases List.mem_cons.mp hp with h | h
        · subst h; exact Nat.le_refl f
        · have := ih _ p h
          omega

/-- Under the per-rank advance bound, every placement file stays below 8. -/
theorem rankPlacements_file_lt (r : List Char) :
    ∀ f, f + (r.map advance).sum ≤ 8 → ∀ p ∈ rankPlacements r f, p.2 < 8 := by
  induction r with
  | nil => intro f _ p hp; simp [rankPlacements] at hp
  | cons c rest ih =>
      intro f hsum p hp
      simp only [List.map_cons, List.sum_cons] at hsum
      unfold rankPlacements at hp
      by_cases hdig : c.isDigit = true
      · rw [if_pos hdig] at hp
        refine ih _ ?_ p hp
        have hadv : advance c = digitVal c := by unfold advance; rw [if_pos hdig]
        rw [hadv] at hsum
        omega
      · rw [if_neg hdig] at hp
        have hadv : advance c = 1 := by unfold advance; rw [if_neg hdig]
        rw [hadv] at hsum
        rcases List.mem_cons.mp hp with h | h
        · subst h; omega
        · exact ih _ (by omega) p h

/-- Placement files strictly increase along a rank. -/
theorem rankPlacements_pairwise (r : List Char) :
    ∀ f, (rankPlacements r f).Pairwise (fun p q => p.2 < q.2) := by
  induction r with
  | nil => intro f; exact List.Pairwise.nil
  | cons c rest ih =>
      intro f
      unfold rankPlacements
      by_cases hdig : c.isDigit = true
      · rw [if_pos hdig]; exact ih _
      · rw [if_neg hdig]
        refine List.Pairwise.cons (fun q hq => ?_) (ih _)
        have := rankPlacements_file_ge rest (f + 1) q hq
        omega

/-- One placement per non-digit character. -/
theorem rankPlacements_length (r : List Char) :
    ∀ f, (rankPlacements r f).length =
      (r.filter (fun c => !c.isDigit)).length := by
  induction r with
  | nil => intro f; rfl
  | cons c rest ih =>
      intro f
      unfold rankPlacements
      by_cases hdig : c.isDigit = true
      · rw [if_pos hdig]
        simp [List.filter_cons, hdig, ih]
      · rw [if_neg hdig]
        simp only [List.filter_cons]
        simp only [hdig]
        simp [ih]

/-- Arithmetic of the spec encoding: the index is in range and the file and
the fen-rank are recoverable from it. -/
theorem specFeatureIndex_facts (c : Char) (fi k : Nat)
    (hf : fi < 8) (hk : k ≤ 7) :
    specFeatureIndex c fi k < 768 ∧
    specFeatureIndex c fi k % 64 % 8 = fi ∧
    idxFenRank (specFeatureIndex c fi k) = 7 - k := by
  have ht : specPieceType c.toLower ≤ 5 := specPieceType_le _
  unfold specFeatureIndex idxFenRank
  by_cases hu : c.isUpper = true
  · rw [if_pos hu, if_pos hu]
    refine ⟨by omega, by omega, ?_⟩
    split_ifs with h6 <;> omega
  · rw [if_neg hu, if_neg hu]
    refine ⟨by omega, by omega, ?_⟩
    split_ifs with h6 <;> omega

/-- The indices of one processed rank: all in range, all tagged with that
rank's fen-row, and pairwise distinct. -/
theorem rank_map_facts (k : Nat) (hk : k ≤ 7) (r : List Char) (f : Nat)
    (hsum : f + (r.map advance).sum ≤ 8) :
    (∀ x ∈ (rankPlacements r f).map (fun p => specFeatureIndex p.1 p.2 k),
      x < 768 ∧ idxFenRank x = 7 - k) ∧
    ((rankPlacements r f).map (fun p => specFeatureIndex p.1 p.2 k)).Nodup := by
  constructor
  · intro x hx
    obtain ⟨p, hp, rfl⟩ := List.mem_map.mp hx
    have hflt := rankPlacements_file_lt r f hsum p hp
    exact ⟨(specFeatureIndex_facts p.1 p.2 k hflt hk).1,
      (specFeatureIndex_facts p.1 p.2 k hflt hk).2.2⟩
  · have hpw := rankPlacements_pairwise r f
    unfold List.Nodup
    rw [List.pairwise_map]
    refine List.Pairwise.imp_of_mem (fun {p q} hp hq hlt => ?_) hpw
    intro heq
    have hfp := rankPlacements_file_lt r f hsum p hp
    have hfq := rankPlacements_file_lt r f hsum q hq
    have e1 := (specFeatureIndex_facts p.1 p.2 k hfp hk).2.1
    have e2 := (specFeatureIndex_facts q.1 q.2 k hfq hk).2.1
    rw [heq, e2] at e1
    omega

/-- Placement count over the whole board. -/
theorem boardPlacements_length (rs : List (List Char)) :
    ∀ fr, (boardPlacements fr rs).length =
      (rs.map (fun r => (r.filter (fun c => !c.isDigit)).length)).sum := by
  induction rs with
  | nil => intro fr; rfl
  | cons r rest ih =>
      intro fr
      unfold boardPlacements
      simp [rankPlacements_length, ih]

/-- The outer loop of the encoder on valid ranks: it succeeds with exactly
the spec-formula image of the board placements, and the indices are
in-range, tagged at or after the starting fen-row, and pairwise distinct. -/
theorem processRanks_spec (rs : List (List Char)) :
    ∀ fr, fr + rs.length ≤ 8 →
    (∀ r ∈ rs, (∀ c ∈ r, validRankChar c) ∧ (r.map advance).sum ≤ 8) →
    processRanks fr rs =
      .ok ((boardPlacements fr rs).map
        (fun p => specFeatureIndex p.1 p.2.1 p.2.2)) ∧
    (∀ x ∈ (boardPlacements fr rs).map
        (fun p => specFeatureIndex p.1 p.2.1 p.2.2),
      x < 768 ∧ fr ≤ idxFenRank x) ∧
    ((boardPlacements fr rs).map
        (fun p => specFeatureIndex p.1 p.2.1 p.2.2)).Nodup := by
  induction rs with
  | nil =>
      intro fr _ _
      exact ⟨rfl, by simp [boardPlacements], by simp [boardPlacements]⟩
  | cons r rest ih =>
      intro fr hlen hv
      simp only [List.length_cons] at hlen
      have hr := hv r (List.mem_cons_self r rest)
      have hrest := fun x hx => hv x (List.mem_cons_of_mem _ hx)
      have hfr : fr ≤ 7 := by omega
      have hk : 7 - fr ≤ 7 := by omega
      have hhead := rank_map_facts (7 - fr) hk r 0 (by simpa using hr.2)
      have hmap := processRank_eq_map (7 - fr) r 0 hr.1
      obtain ⟨ihok, ihmem, ihnd⟩ := ih (fr + 1) (by omega) hrest
      have hcomp :
          ((rankPlacements r 0).map (fun p => (p.1, p.2, 7 - fr))).map
              (fun p => specFeatureIndex p.1 p.2.1 p.2.2) =
            (rankPlacements r 0).map (fun p => specFeatureIndex p.1 p.2 (7 - fr)) := by
        rw [List.map_map]
        rfl
      have hheadrank : ∀ x ∈ ((rankPlacements r 0).map
          (fun p => (p.1, p.2, 7 - fr))).map
            (fun p => specFeatureIndex p.1 p.2.1 p.2.2),
          x < 768 ∧ idxFenRank x = fr := by
        rw [hcomp]
        intro x hx
        have := hhead.1 x hx
        exact ⟨this.1, by omega⟩
      have hbp : boardPlacements fr (r :: rest) =
          (rankPlacements r 0).map (fun p => (p.1, p.2, 7 - fr)) ++
            boardPlacements (fr + 1) rest := rfl
      have hpr : processRanks fr (r :: rest) =
          (match processRank (7 - fr) r 0 with
          | .error e => .error e
          | .ok here =>
              match processRanks (fr + 1) rest with
              | .error e => .error e
              | .ok rest2 => .ok (here ++ rest2)) := rfl
      refine ⟨?_, ?_, ?_⟩
      · rw [hpr, hmap, ihok, hbp, List.map_append, hcomp]
      · rw [hbp, List.map_append]
        intro x hx
        rcases List.mem_append.mp hx with h | h
        · have := hheadrank x h
          exact ⟨this.1, by omega⟩
        · have := ihmem x h
          exact ⟨this.1, by omega⟩
      · rw [hbp, List.map_append]
        refine List.Nodup.append ?_ ihnd ?_
        · rw [hcomp]; exact hhead.2
        · intro x hx hx'
          have e1 := (hheadrank x hx).2
          have e2 := (ihmem x hx').2
          omega

/-- C2 counterexample: the position string splits into exactly 8 rank
segments, yet the encoder produces the index 778, outside `[0, 768)` —
digit runs advancing the file past 7 break the claimed range bound. -/
theorem fen_to_features_range_cex :
    fen_to_features (("8/8/8/8/8/8/8/99k").toList) = .ok [778] ∧
    (splitOnSlash (("8/8/8/8/8/8/8/99k").toList)).length = 8 ∧
    ¬ (778 < 768) := by
  refine ⟨by decide, by decide, by decide⟩

/-- C2 (amended): for a position string whose board token splits into
exactly 8 rank segments, each consisting only of digits and known piece
letters and advancing the file by at most 8 in total, the encoder returns
one index per piece character (the spec-formula image of the board
placements, so each index obeys the encoding rule with mirrored ranks for
black), the produced count equals the piece count, all indices lie in
`[0, 768)`, and the list has no duplicates (each square then necessarily
holds at most one piece). -/
theorem fen_to_features_valid (fen board : List Char)
    (h1 : firstToken fen = some board)
    (h2 : (splitOnSlash board).length = 8)
    (h3 : ∀ r ∈ splitOnSlash board,
      (∀ c ∈ r, validRankChar c) ∧ (r.map advance).sum ≤ 8) :
    fen_to_features fen =
      .ok ((boardPlacements 0 (splitOnSlash board)).map
        (fun p => specFeatureIndex p.1 p.2.1 p.2.2)) ∧
    ((boardPlacements 0 (splitOnSlash board)).map
        (fun p => specFeatureIndex p.1 p.2.1 p.2.2)).length =
      ((splitOnSlash board).map
        (fun r => (r.filter (fun c => !c.isDigit)).length)).sum ∧
    (∀ x ∈ (boardPlacements 0 (splitOnSlash board)).map
        (fun p => specFeatureIndex p.1 p.2.1 p.2.2), x < 768) ∧
    ((boardPlacements 0 (splitOnSlash board)).map
        (fun p => specFeatureIndex p.1 p.2.1 p.2.2)).Nodup := by
  obtain ⟨hok, hmem, hnd⟩ :=
    processRanks_spec (splitOnSlash board) 0 (by omega) h3
  refine ⟨?_, ?_, fun x hx => (hmem x hx).1, hnd⟩
  · unfold fen_to_features
    rw [h1]
    simp only [h2, if_pos]
    exact hok
  · rw [List.length_map, boardPlacements_length]

/-- C2 witness: the amended statement applied to a concrete two-piece
position. -/
theorem fen_to_features_valid_witness :
    firstToken (("q7/8/8/8/8/8/8/7K").toList) =
      some (("q7/8/8/8/8/8/8/7K").toList) ∧
    (splitOnSlash (("q7/8/8/8/8/8/8/7K").toList)).length = 8 ∧
    (∀ r ∈ splitOnSlash (("q7/8/8/8/8/8/8/7K").toList),
      (∀ c ∈ r, validRankChar c) ∧ (r.map advance).sum ≤ 8) ∧
    (fen_to_features (("q7/8/8/8/8/8/8/7K").toList) =
      .ok ((boardPlacements 0 (splitOnSlash (("q7/8/8/8/8/8/8/7K").toList))).map
        (fun p => specFeatureIndex p.1 p.2.1 p.2.2)) ∧
    ((boardPlacements 0 (splitOnSlash (("q7/8/8/8/8/8/8/7K").toList))).map
        (fun p => specFeatureIndex p.1 p.2.1 p.2.2)).length =
      ((splitOnSlash (("q7/8/8/8/8/8/8/7K").toList)).map
        (fun r => (r.filter (fun c => !c.isDigit)).length)).sum ∧
    (∀ x ∈ (boardPlacements 0 (splitOnSlash (("q7/8/8/8/8/8/8/7K").toList))).map
        (fun p => specFeatureIndex p.1 p.2.1 p.2.2), x < 768) ∧
    ((boardPlacements 0 (splitOnSlash (("q7/8/8/8/8/8/8/7K").toList))).map
        (fun p => specFeatureIndex p.1 p.2.1 p.2.2)).Nodup) :=
  ⟨by decide, by decide, by decide,
   fen_to_features_valid (("q7/8/8/8/8/8/8/7K").toList)
     (("q7/8/8/8/8/8/8/7K").toList) (by decide) (by decide) (by decide)⟩

/-- The feature-row loop never touches a `w1` row whose index is not in
the feature list. -/
theorem updateRow_not_mem (lr g : ℚ) (i : Nat) (features : List Nat) :
    ∀ (w1 : Nat → Nat → ℚ) (r : Nat), r ∉ features → ∀ j,
      updateRow lr g i features w1 r j = w1 r j := by
  induction features with
  | nil => intro w1 r _ j; rfl
  | cons a t ih =>
      intro w1 r hr j
      have hra : ¬ r = a := fun h => hr (h ▸ List.mem_cons_self a t)
      have hrt : r ∉ t := fun h => hr (List.mem_cons_of_mem _ h)
      unfold updateRow
      rw [List.foldl_cons]
      have := ih (fun r j => if r = a ∧ j = i then w1 r j - lr * g else w1 r j)
        r hrt j
      unfold updateRow at this
      rw [this]
      simp only [hra, false_and, if_false]

/-- The feature-row loop for hidden unit `i` never touches another
column. -/
theorem updateRow_other_col (lr g : ℚ) (i : Nat) (features : List Nat) :
    ∀ (w1 : Nat → Nat → ℚ) (r j : Nat), ¬ j = i →
      updateRow lr g i features w1 r j = w1 r j := by
  induction features with
  | nil => intro w1 r j _; rfl
  | cons a t ih =>
      intro w1 r j hj
      unfold updateRow
      rw [List.foldl_cons]
      have := ih (fun r j => if r = a ∧ j = i then w1 r j - lr * g else w1 r j)
        r j hj
      unfold updateRow at this
      rw [this]
      simp only [hj, and_false, if_false]

/-- The layer-1 loop leaves every `w1` row outside the feature list
unchanged. -/
theorem layer1_fold_w1_notmem (features : List Nat) (lr grad : ℚ)
    (w2snap : Nat → ℚ) (act : Nat → Bool) (l : List Nat) :
    ∀ st r, r ∉ features → ∀ j,
      ((l.foldl (layer1Step features lr grad w2snap act) st).1) r j = st.1 r j := by
  induction l with
  | nil => intro st r _ j; rfl
  | cons i t ih =>
      intro st r hr j
      rw [List.foldl_cons, ih _ r hr j]
      unfold layer1Step
      split_ifs with h1 h2
      · rfl
      · rfl
      · exact updateRow_not_mem lr (grad * w2snap i) i features st.1 r hr j

/-- The layer-1 loop leaves column `c` of `w1` unchanged when unit `c` is
inactive or its backpropagated signal is zero. -/
theorem layer1_fold_w1_col (features : List Nat) (lr grad : ℚ)
    (w2snap : Nat → ℚ) (act : Nat → Bool) (l : List Nat) :
    ∀ st r c, act c = false ∨ grad * w2snap c = 0 →
      ((l.foldl (layer1Step features lr grad w2snap act) st).1) r c = st.1 r c := by
  induction l with
  | nil => intro st r c _; rfl
  | cons i t ih =>
      intro st r c hc
      rw [List.foldl_cons, ih _ r c hc]
      unfold layer1Step
      split_ifs with h1 h2
      · rfl
      · rfl
      · have hic : ¬ c = i := by
          intro h
          subst h
          rcases hc with h | h
          · exact h1 h
          · exact h2 h
        exact updateRow_other_col lr (grad * w2snap i) i features st.1 r c hic

/-- The layer-1 loop leaves `b1 c` unchanged when unit `c` is inactive or
its backpropagated signal is zero. -/
theorem layer1_fold_b1_frame (features : List Nat) (lr grad : ℚ)
    (w2snap : Nat → ℚ) (act : Nat → Bool) (l : List Nat) :
    ∀ st c, act c = false ∨ grad * w2snap c = 0 →
      ((l.foldl (layer1Step features lr grad w2snap act) st).2) c = st.2 c := by
  induction l with
  | nil => intro st c _; rfl
  | cons i t ih =>
      intro st c hc
      rw [List.foldl_cons, ih _ c hc]
      unfold layer1Step
      split_ifs with h1 h2
      · rfl
      · rfl
      · have hic : ¬ c = i := by
          intro h
          subst h
          rcases hc with h | h
          · exact h1 h
          · exact h2 h
        simp only [hic, if_false]

/-- C4: one training step touches only `w2` entries of nonzero hidden
units, `b2`, and — for active units — `b1[i]` and the `w1` rows listed in
the sample's features; every other entry is left unchanged. -/
theorem train_sample_frame (H : Nat) (m : NnueParams) (features : List Nat)
    (label lr delta : ℚ) :
    (∀ r, r ∉ features → ∀ i,
      ((train_sample H m features label lr delta).1).w1 r i = m.w1 r i) ∧
    (∀ i, activeUnit m features i = false →
      ((train_sample H m features label lr delta).1).b1 i = m.b1 i) ∧
    (∀ i, hiddenPost m features i = 0 →
      ((train_sample H m features label lr delta).1).w2 i = m.w2 i) ∧
    (∀ r i, ((train_sample H m features label lr delta).1).w1 r i ≠ m.w1 r i →
      r ∈ features ∧ activeUnit m features i = true) ∧
    (∀ i, ((train_sample H m features label lr delta).1).b1 i ≠ m.b1 i →
      activeUnit m features i = true) ∧
    (∀ i, ((train_sample H m features label lr delta).1).w2 i ≠ m.w2 i →
      hiddenPost m features i ≠ 0) := by
  have hw1 : ((train_sample H m features label lr delta).1).w1 =
      ((List.range H).foldl
        (layer1Step features lr
          (huber_grad (outputOf H m features - label) delta) m.w2
          (activeUnit m features)) (m.w1, m.b1)).1 := rfl
  have hb1 : ((train_sample H m features label lr delta).1).b1 =
      ((List.range H).foldl
        (layer1Step features lr
          (huber_grad (outputOf H m features - label) delta) m.w2
          (activeUnit m features)) (m.w1, m.b1)).2 := rfl
  have hw2 : ∀ i, ((train_sample H m features label lr delta).1).w2 i =
      (if i < H ∧ hiddenPost m features i ≠ 0 then
        m.w2 i - lr * huber_grad (outputOf H m features - label) delta *
          hiddenPost m features i
      else m.w2 i) := fun i => rfl
  have F1 : ∀ r, r ∉ features → ∀ i,
      ((train_sample H m features label lr delta).1).w1 r i = m.w1 r i := by
    intro r hr i
    rw [hw1]
    exact layer1_fold_w1_notmem features lr _ m.w2 (activeUnit m features)
      (List.range H) (m.w1, m.b1) r hr i
  have F1c : ∀ r i, activeUnit m features i = false →
      ((train_sample H m features label lr delta).1).w1 r i = m.w1 r i := by
    intro r i ha
    rw [hw1]
    exact layer1_fold_w1_col features lr _ m.w2 (activeUnit m features)
      (List.range H) (m.w1, m.b1) r i (Or.inl ha)
  have F2 : ∀ i, activeUnit m features i = false →
      ((train_sample H m features label lr delta).1).b1 i = m.b1 i := by
    intro i hi
    rw [hb1]
    exact layer1_fold_b1_frame features lr _ m.w2 (activeUnit m features)
      (List.range H) (m.w1, m.b1) i (Or.inl hi)
  have F3 : ∀ i, hiddenPost m features i = 0 →
      ((train_sample H m features label lr delta).1).w2 i = m.w2 i := by
    intro i hi
    rw [hw2 i]
    rw [if_neg (fun hc => hc.2 hi)]
  refine ⟨F1, F2, F3, ?_, ?_, ?_⟩
  · intro r i hne
    refine ⟨?_, ?_⟩
    · by_contra hr
      exact hne (F1 r hr i)
    · cases hb : activeUnit m features i
      · exact absurd (F1c r i hb) hne
      · rfl
  · intro i hne
    cases hb : activeUnit m features i
    · exact absurd (F2 i hb) hne
    · rfl
  · intro i hne hzero
    exact hne (F3 i hzero)

/-- C4 witness: with features `[0]`, row 5 of `w1` is untouched by a
concrete training step. -/
theorem train_sample_frame_witness :
    (5 : Nat) ∉ [0] ∧
    ((train_sample 1 ⟨fun _ _ => 1, fun _ => 0, fun _ => 1, 0⟩ [0] 0 1
        100).1).w1 5 0 =
      (⟨fun _ _ => 1, fun _ => 0, fun _ => 1, 0⟩ : NnueParams).w1 5 0 :=
  ⟨by decide,
   (train_sample_frame 1 ⟨fun _ _ => 1, fun _ => 0, fun _ => 1, 0⟩ [0] 0 1
     100).1 5 (by decide) 0⟩

/-- A 32-bit little-endian word survives the byte round trip. -/
theorem fromLE32_toLE32 (w : Nat) (h : w < 4294967296) :
    fromLE32 (toLE32 w) = w := by
  show w % 256 + 256 * (w / 256 % 256) + 65536 * (w / 65536 % 256) +
      16777216 * (w / 16777216 % 256) = w
  omega

/-- Grouping the flattened 4-byte encodings recovers the encodings. -/
theorem chunk4_flatten_map (l : List Nat) :
    chunk4 ((l.map toLE32).flatten) = l.map toLE32 := by
  induction l with
  | nil => rfl
  | cons a t ih =>
      simp only [List.map_cons, List.flatten_cons]
      show toLE32 a :: chunk4 ((t.map toLE32).flatten) =
        toLE32 a :: t.map toLE32
      rw [ih]

/-- Decoding the flattened 4-byte encodings of bounded words recovers the
words. -/
theorem decode_floats_section (l : List Nat) (h : ∀ w ∈ l, w < 4294967296) :
    (chunk4 ((l.map toLE32).flatten)).map fromLE32 = l := by
  rw [chunk4_flatten_map, List.map_map]
  induction l with
  | nil => rfl
  | cons a t ih =>
      simp only [List.map_cons]
      rw [Function.comp_apply, fromLE32_toLE32 a (h a (List.mem_cons_self a t)),
        ih (fun w hw => h w (List.mem_cons_of_mem _ hw))]

/-- The per-row serialization of `w1` equals the serialization of its
row-major flattening. -/
theorem w1_section_flatten (w1 : List (List Nat)) :
    (w1.map (fun row => (row.map toLE32).flatten)).flatten =
      ((w1.flatten).map toLE32).flatten := by
  induction w1 with
  | nil => rfl
  | cons r rs ih =>
      simp only [List.map_cons, List.flatten_cons, List.map_append,
        List.flatten_append, ih]

/-- The serialized artifact split at the 12-byte header. -/
theorem snnueBytes_decomp (input_size hidden_size : Nat)
    (w1 : List (List Nat)) (b1 w2 : List Nat) (b2 : Nat) :
    snnueBytes input_size hidden_size w1 b1 w2 b2 =
      (MAGIC ++ toLE16 input_size ++ toLE16 hidden_size ++ toLE16 VERSION ++
        toLE16 FLAGS) ++
      (((w1.flatten ++ b1 ++ w2 ++ [b2]).map toLE32).flatten) := by
  unfold snnueBytes
  rw [w1_section_flatten]
  simp only [List.map_append, List.flatten_append, List.append_assoc]
  rfl

/-- Dropping the 12 header bytes leaves exactly the float section. -/
theorem snnueBytes_drop12 (input_size hidden_size : Nat)
    (w1 : List (List Nat)) (b1 w2 : List Nat) (b2 : Nat) :
    (snnueBytes input_size hidden_size w1 b1 w2 b2).drop 12 =
      ((w1.flatten ++ b1 ++ w2 ++ [b2]).map toLE32).flatten := by
  rw [snnueBytes_decomp]
  refine List.drop_left' ?_
  simp [MAGIC, toLE16]

/-- Row-count arithmetic: equal-length rows flatten to a known length. -/
theorem sum_map_length (L : List (List Nat)) (n : Nat)
    (h : ∀ r ∈ L, r.length = n) :
    (L.map List.length).sum = L.length * n := by
  induction L with
  | nil => simp
  | cons r rs ih =>
      simp only [List.map_cons, List.sum_cons, List.length_cons,
        h r (List.mem_cons_self r rs),
        ih (fun x hx => h x (List.mem_cons_of_mem _ hx))]
      ring

/-- Splitting a flattening of equal-length nonempty rows recovers the
rows. -/
theorem chunkRows_flatten (n : Nat) (hn : 0 < n) (L : List (List Nat))
    (h : ∀ r ∈ L, r.length = n) : chunkRows n L.flatten = L := by
  induction L with
  | nil =>
      unfold chunkRows
      simp
  | cons r rs ih =>
      have hr : r.length = n := h r (List.mem_cons_self r rs)
      have hrne : r ≠ [] := by
        intro hc
        rw [hc] at hr
        simp at hr
        omega
      have hne : r ++ rs.flatten ≠ [] := by
        intro hc
        exact hrne (List.append_eq_nil.mp hc).1
      rw [List.flatten_cons]
      unfold chunkRows
      rw [dif_neg (by push_neg; exact ⟨by omega, hne⟩)]
      rw [List.take_left' hr, List.drop_left' hr,
        ih (fun x hx => h x (List.mem_cons_of_mem _ hx))]

/-- C5: with the declared shapes 768 × 64, the artifact's byte length is
exactly `12 + (768·64 + 64 + 64 + 1)·4`, the write succeeds, and decoding
the bytes after the 12-byte header as consecutive 4-byte little-endian
floats (w1 row-major, then b1, then w2, then b2) reproduces every
parameter exactly. -/
theorem write_snnue_roundtrip (w1 : List (List Nat)) (b1 w2 : List Nat)
    (b2 : Nat) (hw1 : w1.length = 768) (hrow : ∀ r ∈ w1, r.length = 64)
    (hb1 : b1.length = 64) (hw2 : w2.length = 64)
    (hbw1 : ∀ r ∈ w1, ∀ x ∈ r, x < 4294967296)
    (hbb1 : ∀ x ∈ b1, x < 4294967296) (hbw2 : ∀ x ∈ w2, x < 4294967296)
    (hbb2 : b2 < 4294967296) :
    (write_snnue 768 64 w1 b1 w2 b2).fileBytes.length =
      12 + (768 * 64 + 64 + 64 + 1) * 4 ∧
    (write_snnue 768 64 w1 b1 w2 b2).ok = true ∧
    decode_snnue 768 64 ((write_snnue 768 64 w1 b1 w2 b2).fileBytes) =
      (w1, b1, w2, b2) := by
  have hsum : (w1.map List.length).sum = 768 * 64 := by
    rw [sum_map_length w1 64 hrow, hw1]
  have hlen : (snnueBytes 768 64 w1 b1 w2 b2).length =
      12 + 4 * ((w1.map List.length).sum + b1.length + w2.length + 1) :=
    snnueBytes_length 768 64 w1 b1 w2 b2
  have hflen : w1.flatten.length = 768 * 64 := by
    rw [List.length_flatten, hsum]
  have hbytes : (write_snnue 768 64 w1 b1 w2 b2).fileBytes =
      snnueBytes 768 64 w1 b1 w2 b2 := rfl
  refine ⟨?_, ?_, ?_⟩
  · rw [hbytes, hlen, hsum, hb1, hw2]
  · show (if (snnueBytes 768 64 w1 b1 w2 b2).length =
        12 + (768 * 64 + 64 + 64 + 1) * 4 then true else false) = true
    rw [if_pos (by rw [hlen, hsum, hb1, hw2])]
  · have hbound : ∀ x ∈ w1.flatten ++ b1 ++ w2 ++ [b2], x < 4294967296 := by
      intro x hx
      rcases List.mem_append.mp hx with hx | hx
      · rcases List.mem_append.mp hx with hx | hx
        · rcases List.mem_append.mp hx with hx | hx
          · obtain ⟨r, hr, hxr⟩ := List.mem_flatten.mp hx
            exact hbw1 r hr x hxr
          · exact hbb1 x hx
        · exact hbw2 x hx
      · rw [List.mem_singleton.mp hx]; exact hbb2
    have hfl : (chunk4 (((write_snnue 768 64 w1 b1 w2 b2).fileBytes).drop
        12)).map fromLE32 = w1.flatten ++ b1 ++ w2 ++ [b2] := by
      rw [hbytes, snnueBytes_drop12]
      exact decode_floats_section _ hbound
    show (let fl := (chunk4 (((write_snnue 768 64 w1 b1 w2 b2).fileBytes).drop
          12)).map fromLE32
      let w1flat := fl.take (768 * 64)
      let rest := fl.drop (768 * 64)
      let b1d := rest.take 64
      let rest2 := rest.drop 64
      let w2d := rest2.take 64
      let b2d := List.headD (rest2.drop 64) 0
      (chunkRows 64 w1flat, b1d, w2d, b2d)) = (w1, b1, w2, b2)
    simp only [hfl]
    have e1 : (w1.flatten ++ b1 ++ w2 ++ [b2]).take (768 * 64) = w1.flatten := by
      rw [List.append_assoc, List.append_assoc]
      exact List.take_left' hflen
    have e2 : (w1.flatten ++ b1 ++ w2 ++ [b2]).drop (768 * 64) =
        b1 ++ w2 ++ [b2] := by
      rw [List.append_assoc, List.append_assoc]
      rw [List.drop_left' hflen]
      rw [List.append_assoc]
    have e3 : (b1 ++ w2 ++ [b2]).take 64 = b1 := by
      rw [List.append_assoc]
      exact List.take_left' hb1
    have e4 : (b1 ++ w2 ++ [b2]).drop 64 = w2 ++ [b2] := by
      rw [List.append_assoc]
      exact List.drop_left' hb1
    have e5 : (w2 ++ [b2]).take 64 = w2 := List.take_left' hw2
    have e6 : (w2 ++ [b2]).drop 64 = [b2] := List.drop_left' hw2
    rw [e1, e2, e3, e4, e5, e6]
    rw [chunkRows_flatten 64 (by omega) w1 hrow]
    rfl

/-- C5 witness: the round-trip statement applied to an all-zero parameter
set of the declared shapes. -/
theorem write_snnue_roundtrip_witness :
    (List.replicate 768 (List.replicate 64 0)).length = 768 ∧
    ((write_snnue 768 64 (List.replicate 768 (List.replicate 64 0))
        (List.replicate 64 0) (List.replicate 64 0) 0).fileBytes.length =
      12 + (768 * 64 + 64 + 64 + 1) * 4 ∧
    (write_snnue 768 64 (List.replicate 768 (List.replicate 64 0))
        (List.replicate 64 0) (List.replicate 64 0) 0).ok = true ∧
    decode_snnue 768 64 ((write_snnue 768 64
        (List.replicate 768 (List.replicate 64 0)) (List.replicate 64 0)
        (List.replicate 64 0) 0).fileBytes) =
      (List.replicate 768 (List.replicate 64 0), List.replicate 64 0,
        List.replicate 64 0, 0)) :=
  ⟨by rw [List.length_replicate],
   write_snnue_roundtrip (List.replicate 768 (List.replicate 64 0))
     (List.replicate 64 0) (List.replicate 64 0) 0
     (by rw [List.length_replicate])
     (fun r hr => by rw [List.eq_of_mem_replicate hr, List.length_replicate])
     (by rw [List.length_replicate])
     (by rw [List.length_replicate])
     (fun r hr x hx => by
       rw [List.eq_of_mem_replicate hr] at hx
       rw [List.eq_of_mem_replicate hx]
       norm_num)
     (fun x hx => by rw [List.eq_of_mem_replicate hx]; norm_num)
     (fun x hx => by rw [List.eq_of_mem_replicate hx]; norm_num)
     (by norm_num)⟩

/-- C8: an accepted row's label is the raw evaluation under engine color
first side and its negation otherwise, and the optional 16-bit-resolution
evaluation is sign-normalized by the same rule. -/
theorem process_row_label_sign (row : Row) (gt : Int) (ec : Char) (s : Sample)
    (h : process_row row gt ec = RowOutcome.accept s) :
    (∃ cp, row.evalCp = some cp ∧
      s.label = (if ec = 'w' then cp else -cp)) ∧
    (∀ cp16, row.evalCp16 = some cp16 →
      s.label16 = some (if ec = 'w' then cp16 else -cp16)) ∧
    (row.evalCp16 = none → s.label16 = none) := by
  unfold process_row at h
  by_cases h1 : row.runId = ""
  · rw [if_pos h1] at h; simp at h
  rw [if_neg h1] at h
  by_cases h2 : gt ≠ 0
  · rw [if_pos h2] at h; simp at h
  rw [if_neg h2] at h
  by_cases h3 : row.timeoutNearby = true
  · rw [if_pos h3] at h; simp at h
  rw [if_neg h3] at h
  cases hcp : row.evalCp with
  | none => rw [hcp] at h; simp at h
  | some cp =>
      rw [hcp] at h
      cases hmi : row.mateIn with
      | some m => rw [hmi] at h; simp at h
      | none =>
          rw [hmi] at h
          cases hff : fen_to_features row.fen with
          | error e => rw [hff] at h; simp at h
          | ok features =>
              rw [hff] at h
              simp only [RowOutcome.accept.injEq] at h
              subst h
              refine ⟨⟨cp, rfl, rfl⟩, fun cp16 h16 => ?_, fun h16 => ?_⟩
              · simp only [h16]
              · simp only [h16]

/-- C8 witness: a row with evalCp 120 and engine color the second side is
accepted with label −120. -/
theorem process_row_label_sign_witness :
    process_row ⟨7, "run-1", ("8/8/8/8/8/8/8/8").toList, some 120, none,
        false, none⟩ 0 'b' = RowOutcome.accept ⟨[], -120, none, 7⟩ ∧
    ((∃ cp, (some (120 : ℚ) : Option ℚ) = some cp ∧
      (-120 : ℚ) = (if 'b' = 'w' then cp else -cp)) ∧
    (∀ cp16 : ℚ, (none : Option ℚ) = some cp16 →
      (none : Option ℚ) = some (if 'b' = 'w' then cp16 else -cp16)) ∧
    ((none : Option ℚ) = none → (none : Option ℚ) = none)) :=
  ⟨by decide,
   process_row_label_sign ⟨7, "run-1", ("8/8/8/8/8/8/8/8").toList, some 120,
     none, false, none⟩ 0 'b' ⟨[], -120, none, 7⟩ (by decide)⟩

/-- The two split filters are complementary. -/
theorem split_filters_not (tg : List Int) :
    (fun s : Sample => decide (s.gameId ∉ tg)) =
      (fun s : Sample => !decide (s.gameId ∈ tg)) := by
  funext s
  rw [decide_not]

/-- C6: the splitter takes the first `floor(0.9 · G)` of the shuffled
distinct game identifiers as the training group, sends each sample of a
training-group game to the train set and every other sample to validation;
the two sets partition the samples and no game identifier occurs in both. -/
theorem split_by_game_spec (perm : List Int → List Int) (samples : List Sample)
    (hperm : ∀ l, (perm l).Perm l) :
    (perm (distinctGames samples)).length = (distinctGames samples).length ∧
    (split_by_game perm samples).1 =
      samples.filter (fun s => decide (s.gameId ∈
        (perm (distinctGames samples)).take
          ((perm (distinctGames samples)).length * 9 / 10))) ∧
    (split_by_game perm samples).2 =
      samples.filter (fun s => decide (s.gameId ∉
        (perm (distinctGames samples)).take
          ((perm (distinctGames samples)).length * 9 / 10))) ∧
    ((split_by_game perm samples).1 ++ (split_by_game perm samples).2).Perm
      samples ∧
    (split_by_game perm samples).1.length +
      (split_by_game perm samples).2.length = samples.length ∧
    (∀ g, g ∈ (split_by_game perm samples).1.map Sample.gameId →
      g ∈ (split_by_game perm samples).2.map Sample.gameId → False) := by
  have hlen := (hperm (distinctGames samples)).length_eq
  have h1 : (split_by_game perm samples).1 =
      samples.filter (fun s => decide (s.gameId ∈
        (perm (distinctGames samples)).take
          ((perm (distinctGames samples)).length * 9 / 10))) := rfl
  have h2 : (split_by_game perm samples).2 =
      samples.filter (fun s => decide (s.gameId ∉
        (perm (distinctGames samples)).take
          ((perm (distinctGames samples)).length * 9 / 10))) := rfl
  have hpart : ((split_by_game perm samples).1 ++
      (split_by_game perm samples).2).Perm samples := by
    rw [h1, h2, split_filters_not]
    exact List.filter_append_perm _ samples
  refine ⟨hlen, h1, h2, hpart, ?_, ?_⟩
  · have := hpart.length_eq
    rw [List.length_append] at this
    exact this
  · intro g hg1 hg2
    obtain ⟨s, hs, hsg⟩ := List.mem_map.mp hg1
    obtain ⟨t, ht, htg⟩ := List.mem_map.mp hg2
    rw [h1] at hs
    rw [h2] at ht
    have hs' := of_decide_eq_true (List.mem_filter.mp hs).2
    have ht' := of_decide_eq_true (List.mem_filter.mp ht).2
    rw [hsg] at hs'
    rw [htg] at ht'
    exact ht' hs'

/-- C6 witness: the split statement applied to the identity shuffle on a
two-game sample list. -/
theorem split_by_game_spec_witness :
    (∀ l : List Int, ((fun l => l) l).Perm l) ∧
    (((fun l => l) (distinctGames [⟨[], 0, none, 1⟩, ⟨[], 0, none, 2⟩])).length =
      (distinctGames [⟨[], 0, none, 1⟩, ⟨[], 0, none, 2⟩]).length ∧
    (split_by_game (fun l => l) [⟨[], 0, none, 1⟩, ⟨[], 0, none, 2⟩]).1 =
      ([⟨[], 0, none, 1⟩, ⟨[], 0, none, 2⟩] : List Sample).filter
        (fun s => decide (s.gameId ∈
          ((fun l => l) (distinctGames [⟨[], 0, none, 1⟩, ⟨[], 0, none, 2⟩])).take
            (((fun l => l) (distinctGames
              [⟨[], 0, none, 1⟩, ⟨[], 0, none, 2⟩])).length * 9 / 10))) ∧
    (split_by_game (fun l => l) [⟨[], 0, none, 1⟩, ⟨[], 0, none, 2⟩]).2 =
      ([⟨[], 0, none, 1⟩, ⟨[], 0, none, 2⟩] : List Sample).filter
        (fun s => decide (s.gameId ∉
          ((fun l => l) (distinctGames [⟨[], 0, none, 1⟩, ⟨[], 0, none, 2⟩])).take
            (((fun l => l) (distinctGames
              [⟨[], 0, none, 1⟩, ⟨[], 0, none, 2⟩])).length * 9 / 10))) ∧
    ((split_by_game (fun l => l) [⟨[], 0, none, 1⟩, ⟨[], 0, none, 2⟩]).1 ++
      (split_by_game (fun l => l) [⟨[], 0, none, 1⟩, ⟨[], 0, none, 2⟩]).2).Perm
      [⟨[], 0, none, 1⟩, ⟨[], 0, none, 2⟩] ∧
    (split_by_game (fun l => l) [⟨[], 0, none, 1⟩, ⟨[], 0, none, 2⟩]).1.length +
      (split_by_game (fun l => l) [⟨[], 0, none, 1⟩, ⟨[], 0, none, 2⟩]).2.length =
      ([⟨[], 0, none, 1⟩, ⟨[], 0, none, 2⟩] : List Sample).length ∧
    (∀ g, g ∈ (split_by_game (fun l => l)
        [⟨[], 0, none, 1⟩, ⟨[], 0, none, 2⟩]).1.map Sample.gameId →
      g ∈ (split_by_game (fun l => l)
        [⟨[], 0, none, 1⟩, ⟨[], 0, none, 2⟩]).2.map Sample.gameId → False)) :=
  ⟨fun l => List.Perm.refl l,
   split_by_game_spec (fun l => l) [⟨[], 0, none, 1⟩, ⟨[], 0, none, 2⟩]
     (fun l => List.Perm.refl l)⟩

/-- Deduplicating a nonempty constant list yields the singleton. -/
theorem dedup_const (l : List Int) (g : Int) (hne : l ≠ [])
    (hall : ∀ x ∈ l, x = g) : l.dedup = [g] := by
  induction l with
  | nil => cases hne rfl
  | cons a t ih =>
      have ha : a = g := hall a (List.mem_cons_self a t)
      subst ha
      by_cases ht : t = []
      · subst ht
        rfl
      · have hmem : a ∈ t := by
          obtain ⟨b, u, rfl⟩ := List.exists_cons_of_ne_nil ht
          have hb : b = a := hall b (List.mem_cons_of_mem _
            (List.mem_cons_self b u))
          rw [← hb]
          exact List.mem_cons_self b u
        rw [List.dedup_cons_of_mem hmem]
        exact ih ht (fun x hx => hall x (List.mem_cons_of_mem _ hx))

/-- C10: when every sample shares one game identifier, the cutoff
`floor(1 · 0.9)` is 0, so the train set is empty, the validation set holds
every sample, and a training epoch performs no parameter update. -/
theorem split_single_game (perm : List Int → List Int) (samples : List Sample)
    (g : Int) (hperm : ∀ l, (perm l).Perm l) (hne : samples ≠ [])
    (hall : ∀ s ∈ samples, s.gameId = g) :
    split_by_game perm samples = ([], samples) ∧
    (∀ (H : Nat) (m : NnueParams) (lr delta : ℚ),
      trainEpoch H m (split_by_game perm samples).1 lr delta = m) := by
  have hmapne : samples.map Sample.gameId ≠ [] := by
    intro hc
    exact hne (List.eq_nil_of_map_eq_nil hc)
  have hdd : (samples.map Sample.gameId).dedup = [g] := by
    refine dedup_const _ g hmapne ?_
    intro x hx
    obtain ⟨s, hs, rfl⟩ := List.mem_map.mp hx
    exact hall s hs
  have hdg : distinctGames samples = [g] := by
    unfold distinctGames
    rw [hdd]
    rfl
  have hp : perm [g] = [g] := List.perm_singleton.mp (hperm [g])
  have hsplit : split_by_game perm samples = ([], samples) := by
    unfold split_by_game
    rw [hdg, hp]
    simp
  refine ⟨hsplit, fun H m lr delta => ?_⟩
  rw [hsplit]
  rfl

/-- C10 witness: the single-game statement applied to the identity shuffle
on a one-sample list. -/
theorem split_single_game_witness :
    (∀ l : List Int, ((fun l => l) l).Perm l) ∧
    ([(⟨[], 0, none, 5⟩ : Sample)] ≠ []) ∧
    (∀ s ∈ [(⟨[], 0, none, 5⟩ : Sample)], s.gameId = 5) ∧
    (split_by_game (fun l => l) [(⟨[], 0, none, 5⟩ : Sample)] =
      ([], [(⟨[], 0, none, 5⟩ : Sample)]) ∧
    (∀ (H : Nat) (m : NnueParams) (lr delta : ℚ),
      trainEpoch H m
        (split_by_game (fun l => l) [(⟨[], 0, none, 5⟩ : Sample)]).1
        lr delta = m)) :=
  ⟨fun l => List.Perm.refl l, by decide, by decide,
   split_single_game (fun l => l) [(⟨[], 0, none, 5⟩ : Sample)] 5
     (fun l => List.Perm.refl l) (by decide) (by decide)⟩

/-- `math.inf` always improves. -/
theorem improves_none (v : ℚ) : improves v none = true := rfl

/-- A recorded improvement is a strict decrease. -/
theorem improves_some_true {v b : ℚ} (h : improves v (some b) = true) :
    v < b := by
  by_contra hc
  have hf : improves v (some b) = false := by
    simp only [improves]
    rw [if_neg hc]
  rw [hf] at h
  exact Bool.false_ne_true h

/-- A recorded non-improvement bounds the best loss from above. -/
theorem improves_some_false {v b : ℚ} (h : improves v (some b) = false) :
    b ≤ v := by
  by_contra hc
  have ht : improves v (some b) = true := by
    simp only [improves]
    rw [if_pos (not_le.mp hc)]
  rw [ht] at h
  exact absurd h (by simp)

/-- The epoch loop preserves its invariant: the result counts at least the
starting epoch, breaks exactly with a zero patience counter (when the
initial counter is positive), and keeps the best-so-far bookkeeping
accurate. -/
theorem runLoop_inv {P : Type} (patience : Int) (minEpochs : Nat)
    (paramsAfter : Nat → P) (losses : Nat → ℚ) (hpat : 1 ≤ patience) :
    ∀ (fuel e : Nat) (s : TrainState P),
    ((e = 0 ∧ s = initState P patience) ∨ InvGood paramsAfter losses e s) →
    1 ≤ s.patience_left →
    e ≤ (runLoop patience minEpochs paramsAfter losses e fuel s).2.1 ∧
    (1 ≤ fuel →
      e + 1 ≤ (runLoop patience minEpochs paramsAfter losses e fuel s).2.1) ∧
    ((runLoop patience minEpochs paramsAfter losses e fuel s).2.2 = true →
      (runLoop patience minEpochs paramsAfter losses e fuel s).1.patience_left
        = 0) ∧
    ((runLoop patience minEpochs paramsAfter losses e fuel s).2.2 = false →
      1 ≤ (runLoop patience minEpochs paramsAfter
        losses e fuel s).1.patience_left) ∧
    (((runLoop patience minEpochs paramsAfter losses e fuel s).2.1 = 0 ∧
        (runLoop patience minEpochs paramsAfter losses e fuel s).1 =
          initState P patience) ∨
      InvGood paramsAfter losses
        (runLoop patience minEpochs paramsAfter losses e fuel s).2.1
        (runLoop patience minEpochs paramsAfter losses e fuel s).1) := by
  intro fuel
  induction fuel with
  | zero =>
      intro e s hInv hp1
      have hr : runLoop patience minEpochs paramsAfter losses e 0 s =
        (s, e, false) := rfl
      rw [hr]
      refine ⟨Nat.le_refl e, fun h => absurd h (by omega), ?_, fun _ => hp1, ?_⟩
      · intro h
        exact absurd h (by simp)
      · rcases hInv with ⟨he, hs⟩ | hg
        · exact Or.inl ⟨he, hs⟩
        · exact Or.inr hg
  | succ n ih =>
      intro e s hInv hp1
      by_cases himp : improves (losses e) s.best_val = true
      · -- strict improvement: record, reset patience, continue
        have hstep : stepEpoch patience minEpochs paramsAfter losses e s =
            (⟨some (losses e), e + 1, some (paramsAfter (e + 1)), patience⟩,
             false) := by
          unfold stepEpoch
          rw [if_pos himp]
        have hrun : runLoop patience minEpochs paramsAfter losses e (n + 1) s =
            runLoop patience minEpochs paramsAfter losses (e + 1) n
              ⟨some (losses e), e + 1, some (paramsAfter (e + 1)), patience⟩ := by
          show (let r := stepEpoch patience minEpochs paramsAfter losses e s
            if r.2 then (r.1, e + 1, true)
            else runLoop patience minEpochs paramsAfter losses (e + 1) n r.1) = _
          rw [hstep]
          rfl
        have hInv1 : InvGood paramsAfter losses (e + 1)
            ⟨some (losses e), e + 1, some (paramsAfter (e + 1)), patience⟩ := by
          refine ⟨by show (1 : Nat) ≤ e + 1; omega,
            by show e + 1 ≤ e + 1; omega, by simp, by simp, ?_, ?_⟩
          · intro j hj
            simp only [Nat.add_sub_cancel]
            rcases hInv with ⟨he, hs⟩ | hg
            · subst he
              have : j = 0 := by omega
              subst this
              exact le_refl _
            · obtain ⟨hb1, hb2, hbv, _, hmin, _⟩ := hg
              rcases Nat.lt_succ_iff_lt_or_eq.mp hj with hj' | hj'
              · have hlt : losses e < losses (s.best_epoch - 1) := by
                  have := improves_some_true (hbv ▸ himp)
                  exact this
                exact le_of_lt (lt_of_lt_of_le hlt (hmin j hj'))
              · subst hj'
                exact le_refl _
          · intro j hj
            simp only [Nat.add_sub_cancel] at hj ⊢
            rcases hInv with ⟨he, hs⟩ | hg
            · subst he
              omega
            · obtain ⟨hb1, hb2, hbv, _, hmin, _⟩ := hg
              have hlt : losses e < losses (s.best_epoch - 1) :=
                improves_some_true (hbv ▸ himp)
              exact lt_of_lt_of_le hlt (hmin j (by omega))
        have hrec := ih (e + 1)
          ⟨some (losses e), e + 1, some (paramsAfter (e + 1)), patience⟩
          (Or.inr hInv1) hpat
        rw [hrun]
        obtain ⟨r1, _, r3, r4, r5⟩ := hrec
        exact ⟨by omega, fun _ => r1, r3, r4, r5⟩
      · -- no improvement
        have himpf : improves (losses e) s.best_val = false := by
          cases h : improves (losses e) s.best_val
          · rfl
          · exact absurd h himp
        have hGood : InvGood paramsAfter losses e s := by
          rcases hInv with ⟨he, hs⟩ | hg
          · exfalso
            rw [hs] at himpf
            exact absurd himpf (by simp [initState, improves_none])
          · exact hg
        obtain ⟨hb1, hb2, hbv, hbs, hmin, hstrict⟩ := hGood
        have hble : losses (s.best_epoch - 1) ≤ losses e :=
          improves_some_false (hbv ▸ himpf)
        have hGood1 : InvGood paramsAfter losses (e + 1) s := by
          refine ⟨hb1, by omega, hbv, hbs, ?_, hstrict⟩
          intro j hj
          rcases Nat.lt_succ_iff_lt_or_eq.mp hj with hj' | hj'
          · exact hmin j hj'
          · subst hj'
            exact hble
        by_cases hfloor : minEpochs ≤ e + 1
        · have hstep : stepEpoch patience minEpochs paramsAfter losses e s =
              (⟨s.best_val, s.best_epoch, s.best_snapshot,
                s.patience_left - 1⟩,
               if s.patience_left - 1 ≤ 0 then true else false) := by
            unfold stepEpoch
            rw [if_neg (by rw [himpf]; simp), if_pos hfloor]
          by_cases hstop : s.patience_left - 1 ≤ 0
          · have hrun : runLoop patience minEpochs paramsAfter losses e
                (n + 1) s =
                (⟨s.best_val, s.best_epoch, s.best_snapshot,
                  s.patience_left - 1⟩, e + 1, true) := by
              show (let r := stepEpoch patience minEpochs paramsAfter losses e s
                if r.2 then (r.1, e + 1, true)
                else runLoop patience minEpochs paramsAfter losses (e + 1) n
                  r.1) = _
              rw [hstep, if_pos hstop]
              rfl
            rw [hrun]
            refine ⟨by show e ≤ e + 1; omega, fun _ => by
                show e + 1 ≤ e + 1
                omega, fun _ => by
                show s.patience_left - 1 = 0
                omega, ?_, ?_⟩
            · intro h
              exact absurd h (by simp)
            · exact Or.inr ⟨hb1, by show s.best_epoch ≤ e + 1; omega, hbv,
                hbs, hGood1.2.2.2.2.1, hstrict⟩
          · have hrun : runLoop patience minEpochs paramsAfter losses e
                (n + 1) s =
                runLoop patience minEpochs paramsAfter losses (e + 1) n
                  ⟨s.best_val, s.best_epoch, s.best_snapshot,
                    s.patience_left - 1⟩ := by
              show (let r := stepEpoch patience minEpochs paramsAfter losses e s
                if r.2 then (r.1, e + 1, true)
                else runLoop patience minEpochs paramsAfter losses (e + 1) n
                  r.1) = _
              rw [hstep, if_neg hstop]
              rfl
            have hInv1 : InvGood paramsAfter losses (e + 1)
                ⟨s.best_val, s.best_epoch, s.best_snapshot,
                  s.patience_left - 1⟩ := by
              exact ⟨hb1, by show s.best_epoch ≤ e + 1; omega, hbv, hbs,
                hGood1.2.2.2.2.1, hstrict⟩
            have hrec := ih (e + 1)
              ⟨s.best_val, s.best_epoch, s.best_snapshot,
                s.patience_left - 1⟩
              (Or.inr hInv1) (by show (1 : Int) ≤ s.patience_left - 1; omega)
            rw [hrun]
            obtain ⟨r1, _, r3, r4, r5⟩ := hrec
            exact ⟨by omega, fun _ => r1, r3, r4, r5⟩
        · have hstep : stepEpoch patience minEpochs paramsAfter losses e s =
              (s, false) := by
            unfold stepEpoch
            rw [if_neg (by rw [himpf]; simp), if_neg hfloor]
          have hrun : runLoop patience minEpochs paramsAfter losses e
              (n + 1) s =
              runLoop patience minEpochs paramsAfter losses (e + 1) n s := by
            show (let r := stepEpoch patience minEpochs paramsAfter losses e s
              if r.2 then (r.1, e + 1, true)
              else runLoop patience minEpochs paramsAfter losses (e + 1) n
                r.1) = _
            rw [hstep]
            rfl
          have hrec := ih (e + 1) s (Or.inr hGood1) hp1
          rw [hrun]
          obtain ⟨r1, _, r3, r4, r5⟩ := hrec
          exact ⟨by omega, fun _ => r1, r3, r4, r5⟩

/-- C3: the patience counter is only decremented on a non-improving epoch
at or after the minimum-epoch floor, is reset to `patience` on every strict
improvement, the loop breaks exactly when the counter reaches zero, and on
termination the restored parameters are the snapshot of the earliest epoch
attaining the minimum validation loss over the epochs run. -/
theorem trainer_early_stopping {P : Type} (epochs minEpochs : Nat)
    (patience : Int) (paramsAfter : Nat → P) (losses : Nat → ℚ)
    (hpat : 1 ≤ patience) :
    (∀ e (s : TrainState P), improves (losses e) s.best_val = false →
      e + 1 < minEpochs →
      stepEpoch patience minEpochs paramsAfter losses e s = (s, false)) ∧
    (∀ e (s : TrainState P), improves (losses e) s.best_val = true →
      stepEpoch patience minEpochs paramsAfter losses e s =
        (⟨some (losses e), e + 1, some (paramsAfter (e + 1)), patience⟩,
         false)) ∧
    (∀ e (s : TrainState P), improves (losses e) s.best_val = false →
      minEpochs ≤ e + 1 →
      stepEpoch patience minEpochs paramsAfter losses e s =
        (⟨s.best_val, s.best_epoch, s.best_snapshot, s.patience_left - 1⟩,
         if s.patience_left - 1 ≤ 0 then true else false)) ∧
    ((runTraining epochs minEpochs patience paramsAfter losses).2.2 = true ↔
      (runTraining epochs minEpochs patience paramsAfter
        losses).1.patience_left = 0) ∧
    (1 ≤ epochs →
      1 ≤ (runTraining epochs minEpochs patience paramsAfter
          losses).1.best_epoch ∧
      (runTraining epochs minEpochs patience paramsAfter losses).1.best_epoch ≤
        (runTraining epochs minEpochs patience paramsAfter losses).2.1 ∧
      finalParams paramsAfter
          (runTraining epochs minEpochs patience paramsAfter losses) =
        paramsAfter (runTraining epochs minEpochs patience paramsAfter
          losses).1.best_epoch ∧
      (∀ j, j < (runTraining epochs minEpochs patience paramsAfter
          losses).2.1 →
        losses ((runTraining epochs minEpochs patience paramsAfter
          losses).1.best_epoch - 1) ≤ losses j) ∧
      (∀ j, j + 1 < (runTraining epochs minEpochs patience paramsAfter
          losses).1.best_epoch →
        losses ((runTraining epochs minEpochs patience paramsAfter
          losses).1.best_epoch - 1) < losses j)) ∧
    (epochs = 0 →
      finalParams paramsAfter
          (runTraining epochs minEpochs patience paramsAfter losses) =
        paramsAfter 0) := by
  have hrt : runTraining epochs minEpochs patience paramsAfter losses =
      runLoop patience minEpochs paramsAfter losses 0 epochs
        (initState P patience) := rfl
  rw [hrt]
  have hrun := runLoop_inv patience minEpochs paramsAfter losses hpat epochs 0
    (initState P patience) (Or.inl ⟨rfl, rfl⟩) hpat
  obtain ⟨q1, q2, q3, q4, q5⟩ := hrun
  refine ⟨?_, ?_, ?_, ⟨q3, ?_⟩, ?_, ?_⟩
  · intro e s himpf hfloor
    unfold stepEpoch
    rw [if_neg (by rw [himpf]; simp), if_neg (by omega)]
  · intro e s himp
    unfold stepEpoch
    rw [if_pos himp]
  · intro e s himpf hfloor
    unfold stepEpoch
    rw [if_neg (by rw [himpf]; simp), if_pos hfloor]
  · intro hz
    cases hflag : (runLoop patience minEpochs paramsAfter losses 0 epochs
        (initState P patience)).2.2
    · exfalso
      have := q4 hflag
      omega
    · rfl
  · intro heps
    have h1 := q2 heps
    rcases q5 with ⟨hz, _⟩ | hg
    · omega
    · obtain ⟨hb1, hb2, hbv, hbs, hmin, hstrict⟩ := hg
      refine ⟨hb1, hb2, ?_, hmin, hstrict⟩
      unfold finalParams
      rw [hbs]
  · intro heps
    subst heps
    rfl

/-- C3 witness: the early-stopping statement applied to the concrete
plateau sequence with 10 epochs, floor 3 and patience 2. -/
theorem trainer_early_stopping_witness :
    (1 : Int) ≤ 2 ∧
    ((∀ e (s : TrainState Nat), improves (wLosses e) s.best_val = false →
      e + 1 < 3 → stepEpoch 2 3 (fun n => n) wLosses e s = (s, false)) ∧
    (∀ e (s : TrainState Nat), improves (wLosses e) s.best_val = true →
      stepEpoch 2 3 (fun n => n) wLosses e s =
        (⟨some (wLosses e), e + 1, some ((fun n => n) (e + 1)), 2⟩, false)) ∧
    (∀ e (s : TrainState Nat), improves (wLosses e) s.best_val = false →
      3 ≤ e + 1 →
      stepEpoch 2 3 (fun n => n) wLosses e s =
        (⟨s.best_val, s.best_epoch, s.best_snapshot, s.patience_left - 1⟩,
         if s.patience_left - 1 ≤ 0 then true else false)) ∧
    ((runTraining 10 3 2 (fun n => n) wLosses).2.2 = true ↔
      (runTraining 10 3 2 (fun n => n) wLosses).1.patience_left = 0) ∧
    (1 ≤ 10 →
      1 ≤ (runTraining 10 3 2 (fun n => n) wLosses).1.best_epoch ∧
      (runTraining 10 3 2 (fun n => n) wLosses).1.best_epoch ≤
        (runTraining 10 3 2 (fun n => n) wLosses).2.1 ∧
      finalParams (fun n => n) (runTraining 10 3 2 (fun n => n) wLosses) =
        (fun n => n) (runTraining 10 3 2 (fun n => n) wLosses).1.best_epoch ∧
      (∀ j, j < (runTraining 10 3 2 (fun n => n) wLosses).2.1 →
        wLosses ((runTraining 10 3 2 (fun n => n) wLosses).1.best_epoch - 1) ≤
          wLosses j) ∧
      (∀ j, j + 1 < (runTraining 10 3 2 (fun n => n) wLosses).1.best_epoch →
        wLosses ((runTraining 10 3 2 (fun n => n) wLosses).1.best_epoch - 1) <
          wLosses j)) ∧
    ((10 : Nat) = 0 →
      finalParams (fun n => n) (runTraining 10 3 2 (fun n => n) wLosses) =
        (fun n => n) 0)) :=
  ⟨by decide, trainer_early_stopping 10 3 2 (fun n => n) wLosses (by decide)⟩

/-- C9: the pipeline is a pure function of the dataset rows, the resolved
metadata lookups, the seeded generator families, the quantizer, the seed
and the hyperparameters — two runs with identical inputs produce identical
shuffled order, split, epoch count and stop flag, final parameters, and
serialized weight bytes. -/
theorem pipeline_deterministic (rows1 rows2 : List Row) (t1 t2 : Int → Int)
    (c1 c2 : String → Int → Char)
    (sS1 sS2 : Nat → List Sample → List Sample)
    (sG1 sG2 : Nat → List Int → List Int)
    (iP1 iP2 : Nat → NnueParams) (q1 q2 : ℚ → Nat) (seed1 seed2 : Nat)
    (hp1 hp2 : Hyper)
    (hrows : rows1 = rows2) (ht : t1 = t2) (hc : c1 = c2) (hsS : sS1 = sS2)
    (hsG : sG1 = sG2) (hiP : iP1 = iP2) (hq : q1 = q2) (hseed : seed1 = seed2)
    (hhp : hp1 = hp2) :
    pipeline rows1 t1 c1 sS1 sG1 iP1 q1 seed1 hp1 =
      pipeline rows2 t2 c2 sS2 sG2 iP2 q2 seed2 hp2 := by
  subst hrows
  subst ht
  subst hc
  subst hsS
  subst hsG
  subst hiP
  subst hq
  subst hseed
  subst hhp
  rfl

/-- C9 witness: two identically-configured runs on an empty dataset agree. -/
theorem pipeline_deterministic_witness :
    pipeline [] (fun _ => 0) (fun _ _ => 'w') (fun _ l => l) (fun _ l => l)
      (fun _ => ⟨fun _ _ => 0, fun _ => 0, fun _ => 0, 0⟩) (fun _ => 0) 0
      ⟨1, 1, 1, 1, 100⟩ =
    pipeline [] (fun _ => 0) (fun _ _ => 'w') (fun _ l => l) (fun _ l => l)
      (fun _ => ⟨fun _ _ => 0, fun _ => 0, fun _ => 0, 0⟩) (fun _ => 0) 0
      ⟨1, 1, 1, 1, 100⟩ :=
  pipeline_deterministic [] [] (fun _ => 0) (fun _ => 0) (fun _ _ => 'w')
    (fun _ _ => 'w') (fun _ l => l) (fun _ l => l) (fun _ l => l)
    (fun _ l => l) (fun _ => ⟨fun _ _ => 0, fun _ => 0, fun _ => 0, 0⟩)
    (fun _ => ⟨fun _ _ => 0, fun _ => 0, fun _ => 0, 0⟩) (fun _ => 0)
    (fun _ => 0) 0 0 ⟨1, 1, 1, 1, 100⟩ ⟨1, 1, 1, 1, 100⟩ rfl rfl rfl rfl rfl
    rfl rfl rfl rfl

end TrainNnue
